import Mathlib

/-!
Verification development for the indic-text-normalization repository.

The repository builds weighted finite-state classification grammars
(pynini WFSTs) per language.  This file gives a shallow embedding of the
parts of the code the claims are about:

* the classify-union weight biases of the hne / bn / hi
  tokenize-and-classify engines,
* the cache archive (.far) file naming,
* the fixed preprocessing cascade of context-rewrite (cdrewrite) rules
  of the hne engine,
* the hne math grammar branches and the global shortest-path selection
  on the input "10-2=8",
* the en cardinal phone-number exclusion pattern and the bn telephone
  length requirement,
* the bn whitelist grammar when no whitelist file is given,
* the kn word (fallback) grammar,
* the whitespace separator handling of the token assembly,
* the deterministic shortest-path decode used by normalize.

Weights are modelled as exact rationals (ℚ); strings as `List Char`.
-/

namespace ITN

/-! ### Character classes

The class definitions below mirror the `graph_utils` constants used by
the taggers (`NEMO_DIGIT`, `NEMO_CG_DIGIT`, `NEMO_BN_DIGIT`,
`NEMO_WHITE_SPACE`, `NEMO_ALPHA`, `NEMO_NOT_SPACE`).  The `graph_utils`
module itself is not under `src/`; these are modelled from the spec's
"universal alphabet" usage and the standard NeMo definitions the taggers
import: ASCII digits, Devanagari digits U+0966..U+096F, Bengali digits
U+09E6..U+09EF, whitespace { space, tab, newline, carriage return,
no-break space }, ASCII letters. -/

/-- `NEMO_DIGIT`: an ASCII digit `0`-`9`. -/
def isAsciiDigit (c : Char) : Bool := '0' ≤ c && c ≤ '9'

/-- `NEMO_CG_DIGIT`: a Devanagari digit `०`-`९` (U+0966..U+096F). -/
def isCGDigit (c : Char) : Bool := 0x0966 ≤ c.val && c.val ≤ 0x096F

/-- `NEMO_BN_DIGIT`: a Bengali digit `০`-`৯` (U+09E6..U+09EF). -/
def isBNDigit (c : Char) : Bool := 0x09E6 ≤ c.val && c.val ≤ 0x09EF

/-- Modelled from the spec: `NEMO_WHITE_SPACE` of the absent
`graph_utils` module — the whitespace alphabet of the tokenizer. -/
def isWhite (c : Char) : Bool :=
  c == ' ' || c == '\t' || c == '\n' || c == '\r' || c == ' '

/-- `NEMO_ALPHA`: an ASCII letter. -/
def isAsciiAlpha (c : Char) : Bool :=
  ('a' ≤ c && c ≤ 'z') || ('A' ≤ c && c ≤ 'Z')

/-- The Devanagari block U+0900..U+097F (`cg_block` in the hne engine). -/
def inCGBlock (c : Char) : Bool := 0x0900 ≤ c.val && c.val < 0x0980

/-- `NEMO_NOT_SPACE`: any non-whitespace character. -/
def isNotSpace (c : Char) : Bool := !(isWhite c)

/-! ## C1 — classify-union weight biases

`ClassifyFst.__init__` of the hne, bn and hi engines builds

    classify = add_weight(g₁, w₁) | ... | add_weight(gₙ, wₙ)
    classify = union(classify, add_weight(word_graph, 100))

The weight lists below transcribe, in declaration order, the
`pynutil.add_weight` biases of the real category grammars in each
engine's classify union.  The hi engine additionally unions an
abbreviation grammar at weight 100 when `deterministic` is false. -/

/-- The weight bias the three engines attach to the fallback word graph. -/
def fallbackWordWeight : ℚ := 100

/-- hne classify biases: whitelist 1.01, telephone 1.0, date 1.05,
time 1.05, power 1.05, scientific 1.05, cardinal 1.1, decimal 1.1,
fraction 1.1, measure 1.1, money 1.1, math 1.15, ordinal 1.1. -/
def hneClassifyWeights : List ℚ :=
  [1.01, 1.0, 1.05, 1.05, 1.05, 1.05, 1.1, 1.1, 1.1, 1.1, 1.1, 1.15, 1.1]

/-- bn classify biases: whitelist 1.01, time 1.1, date 1.09, decimal 1.1,
cardinal 1.1, ordinal 1.1, money 1.1, telephone 0.5, fraction 1.1,
math 1.1, scientific 1.08, power 1.09. -/
def bnClassifyWeights : List ℚ :=
  [1.01, 1.1, 1.09, 1.1, 1.1, 1.1, 1.1, 0.5, 1.1, 1.1, 1.08, 1.09]

/-- hi classify biases: whitelist 1.01, time 1.1, date 1.09, decimal 1.1,
measure 1.1, cardinal 1.1, ordinal 1.1, money 1.1, telephone 1.1,
electronic 1.11, fraction 1.1, range 1.1, serial 1.12,
range-money 1.1; plus abbreviation 100 when not deterministic. -/
def hiClassifyWeights (deterministic : Bool) : List ℚ :=
  [1.01, 1.1, 1.09, 1.1, 1.1, 1.1, 1.1, 1.1, 1.1, 1.11, 1.1, 1.1, 1.12, 1.1]
    ++ (if deterministic then [] else [100])

/-- C1 counterexample: in the hi engine built with `deterministic = False`,
the abbreviation grammar joins the classify union with bias 100, so the
fallback bias 100 does not strictly exceed the sum of the real category
biases of that union. -/
theorem C1_hi_nondet_fallback_not_dominating :
    ¬ fallbackWordWeight > (hiClassifyWeights false).sum := by
  norm_num [fallbackWordWeight, hiClassifyWeights]

/-- C1 (amended): in the hne and bn engines (whose classify biases do not
depend on the mode) and in the hi engine in deterministic mode, the
fallback word-graph bias 100 strictly exceeds the sum of the weight
biases of all real category grammars in the classify union. -/
theorem C1_fallback_dominates_sum :
    fallbackWordWeight > hneClassifyWeights.sum ∧
    fallbackWordWeight > bnClassifyWeights.sum ∧
    fallbackWordWeight > (hiClassifyWeights true).sum := by
  refine ⟨?_, ?_, ?_⟩ <;>
    norm_num [fallbackWordWeight, hneClassifyWeights, bnClassifyWeights,
      hiClassifyWeights]

/-! ## C6 — cache archive file naming

Each engine computes

    whitelist_file = os.path.basename(whitelist) if whitelist else ""
    far_file = os.path.join(cache_dir,
        f"<prefix>_{deterministic}_deterministic_{input_case}_{whitelist_file}_tokenize.far")

with prefix `hi_tn` in the hne engine, `bn_tn` in the bn engine and
`hi_tn` in the hi engine. -/

/-- Python `str(bool)`: `True` / `False`, as interpolated by the f-string. -/
def pyBoolStr (b : Bool) : String := if b then "True" else "False"

/-- `os.path.basename`: the path component after the last `/`. -/
def basenameAux (acc : List Char) : List Char → List Char
  | [] => acc
  | c :: cs => if c = '/' then basenameAux [] cs else basenameAux (acc ++ [c]) cs

/-- `os.path.basename` on strings. -/
def pyBasename (p : String) : String := String.mk (basenameAux [] p.toList)

/-- The middle of the far-file name shared by all three engines. -/
def farFileSuffix (det : Bool) (inputCase : String) (whitelist : Option String) :
    String :=
  "_tn_" ++ pyBoolStr det ++ "_deterministic_" ++ inputCase ++ "_"
    ++ (match whitelist with | some w => pyBasename w | none => "")
    ++ "_tokenize.far"

/-- The far-file path computed by the hne engine: note the `hi` prefix. -/
def hneFarFile (cacheDir : String) (det : Bool) (inputCase : String)
    (whitelist : Option String) : String :=
  cacheDir ++ "/" ++ "hi" ++ farFileSuffix det inputCase whitelist

/-- The far-file path computed by the bn engine. -/
def bnFarFile (cacheDir : String) (det : Bool) (inputCase : String)
    (whitelist : Option String) : String :=
  cacheDir ++ "/" ++ "bn" ++ farFileSuffix det inputCase whitelist

/-- The far-file path computed by the hi engine. -/
def hiFarFile (cacheDir : String) (det : Bool) (inputCase : String)
    (whitelist : Option String) : String :=
  cacheDir ++ "/" ++ "hi" ++ farFileSuffix det inputCase whitelist

/-- C6: the hne engine writes its cache archive under the `hi_tn_` prefix,
so with identical settings the hne and hi engines read and write the very
same cache path — the archive name is not keyed by the language, contrary
to the claim.  Evaluated at cache_dir `cache`, deterministic true, input
case `cased`, no whitelist. -/
theorem C6_hne_hi_far_file_collision :
    hneFarFile "cache" true "cased" none = hiFarFile "cache" true "cased" none ∧
    hneFarFile "cache" true "cased" none =
      "cache/hi_tn_True_deterministic_cased__tokenize.far" := by
  constructor <;> rfl

/-! ## C3 — phone-number exclusion and telephone length boundary

`CardinalFst.__init__` (en, deterministic mode) builds

    phone_number_pattern = Σd^7 | Σd^8 | Σd^9 | (Σd^4 + (Σd^6 - "000000"))
    graph_excluding_phone = compose(domain(graph_with_and) - phone_number_pattern,
                                    graph_with_and)

`TelephoneFst.__init__` (bn) accepts a number part of at least
`min_digits = 10` Bengali or Arabic digits. -/

/-- The `phone_number_pattern` of the en cardinal tagger: 7, 8 or 9
digits, or 10 digits whose last six are not all `0`. -/
def phoneNumberPattern (s : List Char) : Bool :=
  s.all isAsciiDigit &&
    (s.length == 7 || s.length == 8 || s.length == 9 ||
      (s.length == 10 && !(s.drop 4 == ['0', '0', '0', '0', '0', '0'])))

/-- `graph_excluding_phone`: the plain-number grammar restricted to
inputs of the number-name graph's domain (`dom`, external FAR data) that
do not match the phone pattern. -/
def graphExcludingPhone (dom : List Char → Bool) (s : List Char) : Bool :=
  dom s && !phoneNumberPattern s

/-- The input domain of the bn telephone `number_part`: at least ten
Bengali digits or at least ten Arabic digits. -/
def bnTelephoneNumberPart (s : List Char) : Bool :=
  decide (10 ≤ s.length) && (s.all isBNDigit || s.all isAsciiDigit)

/-- C3: for a numeric string in the plain-number domain: at length 10,
the round numbers (last six digits zero) stay in the plain-number
grammar while all others are excluded from it and accepted by the
telephone grammar; length-9 strings are excluded from plain numbers and
length-11 strings are not. -/
theorem C3_digit_length_boundary (dom : List Char → Bool) (s : List Char)
    (hdig : s.all isAsciiDigit = true) (hdom : dom s = true) :
    (s.length = 10 →
      (s.drop 4 = ['0', '0', '0', '0', '0', '0'] →
        graphExcludingPhone dom s = true) ∧
      (s.drop 4 ≠ ['0', '0', '0', '0', '0', '0'] →
        graphExcludingPhone dom s = false ∧ bnTelephoneNumberPart s = true)) ∧
    (s.length = 9 → graphExcludingPhone dom s = false) ∧
    (s.length = 11 → graphExcludingPhone dom s = true) := by
  constructor
  · intro h10
    constructor
    · intro hz
      simp [graphExcludingPhone, phoneNumberPattern, hdom, h10, hz]
    · intro hnz
      have hb : (s.drop 4 == ['0', '0', '0', '0', '0', '0']) = false := by
        simpa using hnz
      refine ⟨?_, ?_⟩
      · simp [graphExcludingPhone, phoneNumberPattern, hdig, h10, hb]
      · simp [bnTelephoneNumberPart, hdig, h10]
  · constructor
    · intro h9
      simp [graphExcludingPhone, phoneNumberPattern, hdig, h9]
    · intro h11
      simp [graphExcludingPhone, phoneNumberPattern, hdom, h11]

/-- C3 witness instance: `1000000000` (ten digits, six trailing zeros)
stays a plain number; `1234567890` (ten digits, not ending in six
zeros) is excluded from plain numbers and accepted by the telephone
grammar. -/
theorem C3_digit_length_boundary_witness :
    graphExcludingPhone (fun _ => true) "1000000000".toList = true ∧
    (graphExcludingPhone (fun _ => true) "1234567890".toList = false ∧
      bnTelephoneNumberPart "1234567890".toList = true) :=
  ⟨((C3_digit_length_boundary (fun _ => true) "1000000000".toList
      (by decide) rfl).1 (by decide)).1 (by decide),
   ((C3_digit_length_boundary (fun _ => true) "1234567890".toList
      (by decide) rfl).1 (by decide)).2 (by decide)⟩

/-! ## C9 — bn whitelist with no input file

`WhiteListFst.__init__` (bn), `input_file=None` branch:

    self.fst = pynini.cdrewrite(pynini.cross("", ""), "", "",
                                pynini.closure(pynini.union("a", "z"))).optimize()

By the cdrewrite semantics of §4.3 (rewrite each occurrence of the
`from` pattern, identity elsewhere on Σ*), rewriting the empty string to
the empty string over Σ* = closure(union("a","z")) is the identity
transducer on the language of strings over the alphabet `a`, `z`. -/

/-- Membership in `closure(union("a", "z"))`. -/
def azStar (s : List Char) : Bool := s.all fun c => c == 'a' || c == 'z'

/-- The fst built by the bn whitelist tagger when `input_file=None`:
identity on `azStar`, undefined elsewhere. -/
def bnWhitelistNoneFst (s : List Char) : Option (List Char) :=
  if azStar s then some s else none

/-- C9: with no whitelist file, the bn whitelist fst is the identity
transducer on strings over the alphabet `a`, `z` (including the empty
string); its outputs carry no `name:` field and no token markers (no
quote and no colon ever appears in an output). -/
theorem C9_whitelist_none_identity :
    (∀ s, (bnWhitelistNoneFst s).isSome = azStar s) ∧
    bnWhitelistNoneFst [] = some [] ∧
    (∀ s t, bnWhitelistNoneFst s = some t →
      t = s ∧ azStar t = true ∧ '"' ∉ t ∧ ':' ∉ t) := by
  refine ⟨fun s => ?_, rfl, fun s t h => ?_⟩
  · by_cases haz : azStar s <;> simp [bnWhitelistNoneFst, haz]
  · have haz : azStar s = true := by
      by_contra hc
      simp [bnWhitelistNoneFst, Bool.not_eq_true] at h
      exact absurd h.1 (by simpa using hc)
    have ht : t = s := by
      have := h
      simp [bnWhitelistNoneFst, haz] at this
      exact this.symm
    subst ht
    refine ⟨rfl, haz, fun hq => ?_, fun hq => ?_⟩
    · have := List.all_eq_true.mp haz _ hq
      simp at this
    · have := List.all_eq_true.mp haz _ hq
      simp at this

/-- C9 witness instance: the two-letter string `az` maps to itself. -/
theorem C9_whitelist_none_identity_witness :
    ['a', 'z'] = ['a', 'z'] ∧ azStar ['a', 'z'] = true ∧
      '"' ∉ ['a', 'z'] ∧ ':' ∉ ['a', 'z'] :=
  C9_whitelist_none_identity.2.2 ['a', 'z'] ['a', 'z'] rfl

/-! ## C10 — the kn word (fallback) grammar accepts the empty string

`WordFst.__init__` (kn) builds

    graph = add_weight(closure(KANNADA_CHAR - symbols_to_exclude, 1), MIN_NEG_WEIGHT)
            | closure(NEMO_NOT_SPACE - punct, 1)
    graph = closure(graph + closure(punct + graph, 0, 1))
    self.fst = insert("name: \"") + convert_space(graph) + insert("\"")

The outer `closure` permits zero repetitions, so the graph accepts the
empty string, and the two inserts then emit `name: ""`.  The kn
punctuation grammar is not under `src/`, so the punctuation alphabet is
kept abstract (`punct`). -/

/-- Kleene closure of a language of character lists. -/
inductive StarL (A : List Char → Prop) : List Char → Prop
  | nil : StarL A []
  | cons {u v : List Char} : A u → StarL A v → StarL A (u ++ v)

/-- Concatenation of two languages. -/
def concatL (A B : List Char → Prop) : List Char → Prop :=
  fun s => ∃ u v, s = u ++ v ∧ A u ∧ B v

/-- Union of two languages. -/
def unionL (A B : List Char → Prop) : List Char → Prop := fun s => A s ∨ B s

/-- Bounded closure `{0,1}`: the language plus the empty string. -/
def optL (A : List Char → Prop) : List Char → Prop := fun s => s = [] ∨ A s

/-- `closure(c, 1)` over a character class: nonempty strings of the class. -/
def plusClsL (p : Char → Bool) : List Char → Prop :=
  fun s => s ≠ [] ∧ s.all p = true

/-- The single-character language of a class (the punctuation arcs). -/
def oneClsL (p : Char → Bool) : List Char → Prop :=
  fun s => ∃ c, s = [c] ∧ p c = true

/-- `KANNADA_CHAR`: the Kannada script block U+0C80..U+0CFF. -/
def knChar (c : Char) : Bool := 0x0C80 ≤ c.val && c.val ≤ 0x0CFF

/-- `symbols_to_exclude`: currency/number symbols union the punctuation
class. -/
def knSymbolExcl (punct : Char → Bool) (c : Char) : Bool :=
  c ∈ ['$', '€', '₩', '£', '¥', '#', '%'] || punct c

/-- The weighted Kannada branch of the kn word graph (input language). -/
def knKannadaBranch (punct : Char → Bool) : List Char → Prop :=
  plusClsL fun c => knChar c && !knSymbolExcl punct c

/-- The default branch: nonempty non-space, non-punctuation strings. -/
def knDefaultBranch (punct : Char → Bool) : List Char → Prop :=
  plusClsL fun c => isNotSpace c && !punct c

/-- The union of the two word branches. -/
def knWordInner (punct : Char → Bool) : List Char → Prop :=
  unionL (knKannadaBranch punct) (knDefaultBranch punct)

/-- The input language of the kn word graph: the outer Kleene closure
of branch (optionally punctuation branch). -/
def knWordLang (punct : Char → Bool) : List Char → Prop :=
  StarL (concatL (knWordInner punct)
    (optL (concatL (oneClsL punct) (knWordInner punct))))

/-- `convert_space`: spaces in the output are replaced by the
non-breaking space U+00A0. -/
def convertSpace (s : List Char) : List Char :=
  s.map fun c => if c = ' ' then ' ' else c

/-- The relation of the kn word fst: accept a word-graph string and wrap
it in `name: "..."`. -/
def knWordFstRel (punct : Char → Bool) (i o : List Char) : Prop :=
  knWordLang punct i ∧ o = "name: \"".toList ++ convertSpace i ++ ['"']

/-- C10: for every punctuation alphabet, the kn word fst accepts the
empty input string (the outer closure permits zero repetitions) and
emits the token content `name: ""` from no consumed input. -/
theorem C10_word_accepts_empty (punct : Char → Bool) :
    knWordFstRel punct [] "name: \"\"".toList :=
  ⟨StarL.nil, rfl⟩

/-! ## C8 — normalize is deterministic with a fixed tie-break

`Normalizer.normalize` itself (`normalize.py`) is not under `src/`;
modelled from the spec: a pure function of (text, config) that runs the
compiled grammar over the text and selects the minimum-weight candidate
by shortest-path decode; on exact weight ties the fixed rule keeps the
earliest candidate in declaration order.  `selectStep` keeps the current
best and replaces it only on strictly smaller weight, which is exactly
that rule. -/

/-- One step of the shortest-path selection: replace the current best
only when the challenger has strictly smaller weight. -/
def selectStep (b c : ℚ × String) : ℚ × String := if c.1 < b.1 then c else b

/-- Modelled from the spec: the shortest-path decode over the candidate
list of a composed grammar, in declaration order. -/
def selectParse : List (ℚ × String) → Option (ℚ × String)
  | [] => none
  | c :: cs => some (cs.foldl selectStep c)

/-- Modelled from the spec: `normalize(text, config)` — decode the
candidates the compiled grammar `g` produces for the configuration and
text, and emit the selected output. -/
def normalize (g : String → String → List (ℚ × String))
    (text cfg : String) : Option String :=
  (selectParse (g cfg text)).map Prod.snd

/-- The foldl of `selectStep` returns the first minimum: everything
before it is strictly heavier, everything after it no lighter. -/
theorem selectFold_first_min :
    ∀ (cs : List (ℚ × String)) (c : ℚ × String),
      ∃ u v, c :: cs = u ++ (cs.foldl selectStep c) :: v ∧
        (∀ x ∈ u, (cs.foldl selectStep c).1 < x.1) ∧
        (∀ x ∈ v, (cs.foldl selectStep c).1 ≤ x.1) := by
  intro cs
  induction cs with
  | nil =>
      intro c
      exact ⟨[], [], rfl, by simp, by simp⟩
  | cons d cs' ih =>
      intro c
      have hfold : (d :: cs').foldl selectStep c = cs'.foldl selectStep (selectStep c d) := rfl
      rw [hfold]
      obtain ⟨u', v', hsplit, hu', hv'⟩ := ih (selectStep c d)
      set r := cs'.foldl selectStep (selectStep c d) with hr
      by_cases hd : d.1 < c.1
      · have hsel : selectStep c d = d := by simp [selectStep, hd]
        rw [hsel] at hsplit
        cases u' with
        | nil =>
            simp only [List.nil_append] at hsplit
            have hrd : r = d := by
              have := hsplit
              injection this with h1 h2
              exact h1.symm
            have hv'' : v' = cs' := by
              have := hsplit
              injection this with h1 h2
              exact h2.symm
            refine ⟨[c], cs', ?_, ?_, ?_⟩
            · simp [hrd, hv''] at hsplit ⊢
            · intro x hx
              simp at hx
              subst hx
              rw [hrd]
              exact hd
            · intro x hx
              exact hv' x (by rw [hv'']; exact hx)
        | cons e u'' =>
            have he : e = d ∧ cs' = u'' ++ r :: v' := by
              have := hsplit
              rw [List.cons_append] at this
              injection this with h1 h2
              exact ⟨h1.symm, h2⟩
            refine ⟨c :: d :: u'', v', ?_, ?_, hv'⟩
            · rw [List.cons_append, List.cons_append, ← he.2]
            · intro x hx
              rcases List.mem_cons.mp hx with hxc | hx'
              · subst hxc
                have hrd : r.1 < d.1 := hu' d (by rw [he.1]; exact List.mem_cons_self _ _)
                exact lt_trans hrd hd
              · rcases List.mem_cons.mp hx' with hxd | hxu
                · subst hxd
                  exact hu' x (by rw [he.1]; exact List.mem_cons_self _ _)
                · exact hu' x (List.mem_cons_of_mem _ hxu)
      · have hsel : selectStep c d = c := by simp [selectStep, hd]
        rw [hsel] at hsplit
        have hdc : c.1 ≤ d.1 := le_of_not_lt hd
        cases u' with
        | nil =>
            simp only [List.nil_append] at hsplit
            have hrc : r = c := by
              injection hsplit with h1 h2
              exact h1.symm
            have hv'' : v' = cs' := by
              injection hsplit with h1 h2
              exact h2.symm
            refine ⟨[], d :: cs', by simp [hrc], by simp, ?_⟩
            intro x hx
            rcases List.mem_cons.mp hx with hxd | hx'
            · subst hxd
              rw [hrc]; exact hdc
            · exact hv' x (by rw [hv'']; exact hx')
        | cons e u'' =>
            have he : e = c ∧ cs' = u'' ++ r :: v' := by
              rw [List.cons_append] at hsplit
              injection hsplit with h1 h2
              exact ⟨h1.symm, h2⟩
            refine ⟨c :: d :: u'', v', ?_, ?_, hv'⟩
            · rw [List.cons_append, List.cons_append, ← he.2]
            · intro x hx
              have hrc : r.1 < c.1 := hu' c (by rw [he.1]; exact List.mem_cons_self _ _)
              rcases List.mem_cons.mp hx with hxc | hx'
              · subst hxc; exact hrc
              · rcases List.mem_cons.mp hx' with hxd | hxu
                · subst hxd
                  exact lt_of_lt_of_le hrc hdc
                · exact hu' x (List.mem_cons_of_mem _ hxu)

/-- C8: `normalize` is deterministic — two invocations on the same
(text, config) against the same compiled grammar give the same output —
and the selection implements the fixed tie-break rule: the selected
candidate is the first minimum of the candidate list (everything
declared before it is strictly heavier, everything after it no
lighter). -/
theorem C8_normalize_deterministic :
    (∀ g text cfg, normalize g text cfg = normalize g text cfg) ∧
    (∀ l r, selectParse l = some r →
      ∃ u v, l = u ++ r :: v ∧ (∀ x ∈ u, r.1 < x.1) ∧ (∀ x ∈ v, r.1 ≤ x.1)) := by
  refine ⟨fun g text cfg => rfl, fun l r h => ?_⟩
  cases l with
  | nil => simp [selectParse] at h
  | cons c cs =>
      have hr : cs.foldl selectStep c = r := by
        simpa [selectParse] using h
      obtain ⟨u, v, hsplit, hu, hv⟩ := selectFold_first_min cs c
      rw [hr] at hsplit hu hv
      exact ⟨u, v, hsplit, hu, hv⟩

/-- C8 witness instance: on an exact weight tie the earlier candidate in
declaration order is selected. -/
theorem C8_normalize_deterministic_witness :
    ∃ u v, [((1 : ℚ), "b"), ((1 : ℚ), "a")] = u ++ ((1 : ℚ), "b") :: v ∧
      (∀ x ∈ u, ((1 : ℚ), "b").1 < x.1) ∧
      (∀ x ∈ v, ((1 : ℚ), "b").1 ≤ x.1) :=
  C8_normalize_deterministic.2 [((1 : ℚ), "b"), ((1 : ℚ), "a")] ((1 : ℚ), "b")
    (by norm_num [selectParse, selectStep])

/-! ## C7 — whitespace separator handling of the token assembly

The assembly of `ClassifyFst.__init__` (hne, bn) joins tokens with

    pynini.compose(pynini.closure(NEMO_WHITE_SPACE, 1), delete_extra_space)

and wraps the whole graph as `delete_space + graph + delete_space`.
`delete_extra_space` and `delete_space` live in the absent `graph_utils`
module; modelled from the spec: `delete_extra_space` rewrites a nonempty
whitespace run to a single space, `delete_space` deletes a (possibly
empty) whitespace run.  The whole-string whitespace effect is therefore:
strip edge whitespace, collapse every inner run to one space. -/

/-- The separator transducer between tokens: the composition of
`closure(NEMO_WHITE_SPACE, 1)` with `delete_extra_space` maps exactly
the nonempty whitespace runs, each to one single space. -/
def deleteExtraSpace (s : List Char) : Option (List Char) :=
  if !s.isEmpty && s.all isWhite then some [' '] else none

/-- Collapse adjacent whitespace pairs and canonicalise whitespace to
the space character, as the assembly's separator handling does. -/
def squeezeWS : List Char → List Char
  | [] => []
  | [c] => if isWhite c then [' '] else [c]
  | c :: d :: cs =>
      if isWhite c && isWhite d then squeezeWS (d :: cs)
      else (if isWhite c then ' ' else c) :: squeezeWS (d :: cs)

/-- The leading `delete_space`: drop edge whitespace at the front. -/
def stripLeadWS (s : List Char) : List Char := s.dropWhile isWhite

/-- The trailing `delete_space`: drop edge whitespace at the back. -/
def stripTrailWS : List Char → List Char
  | [] => []
  | c :: cs =>
      match stripTrailWS cs with
      | [] => if isWhite c then [] else [c]
      | r => c :: r

/-- The whole-string whitespace normalisation the token assembly
performs: collapse runs, then strip both edges. -/
def wsNormalize (s : List Char) : List Char :=
  stripTrailWS (stripLeadWS (squeezeWS s))

/-- No two adjacent whitespace characters. -/
def noTwoWS : List Char → Bool
  | [] => true
  | [_] => true
  | c :: d :: cs => !(isWhite c && isWhite d) && noTwoWS (d :: cs)

/-- Every whitespace character is the plain space. -/
def wsAreSpace (s : List Char) : Bool := s.all fun c => !isWhite c || c == ' '

/-- The first character is not whitespace. -/
def noLeadWS : List Char → Bool
  | [] => true
  | c :: _ => !isWhite c

/-- The last character is not whitespace. -/
def noTrailWS : List Char → Bool
  | [] => true
  | [c] => !isWhite c
  | _ :: cs => noTrailWS cs

theorem noTwoWS_tail {c : Char} {cs : List Char} (h : noTwoWS (c :: cs) = true) :
    noTwoWS cs = true := by
  cases cs with
  | nil => rfl
  | cons d cs' =>
      simp only [noTwoWS, Bool.and_eq_true] at h
      exact h.2

theorem squeezeWS_head_nonwhite (d : Char) (cs : List Char)
    (hd : isWhite d = false) : (squeezeWS (d :: cs)).head? = some d := by
  cases cs with
  | nil => simp [squeezeWS, hd]
  | cons e es => simp [squeezeWS, hd]

theorem squeezeWS_props : ∀ s, noTwoWS (squeezeWS s) = true ∧
    wsAreSpace (squeezeWS s) = true := by
  intro s
  induction s with
  | nil => exact ⟨rfl, rfl⟩
  | cons c cs ih =>
      cases cs with
      | nil =>
          by_cases hc : isWhite c = true
          · have hs : squeezeWS [c] = [' '] := by simp [squeezeWS, hc]
            rw [hs]
            exact ⟨by decide, by decide⟩
          · simp only [Bool.not_eq_true] at hc
            have hs : squeezeWS [c] = [c] := by simp [squeezeWS, hc]
            rw [hs]
            exact ⟨rfl, by simp [wsAreSpace, hc]⟩
      | cons d cs' =>
          by_cases hcd : (isWhite c && isWhite d) = true
          · simpa [squeezeWS, hcd] using ih
          · have hres : squeezeWS (c :: d :: cs') =
                (if isWhite c then ' ' else c) :: squeezeWS (d :: cs') := by
              simp [squeezeWS, hcd]
            rw [hres]
            refine ⟨?_, ?_⟩
            · by_cases hc : isWhite c = true
              · have hd : isWhite d = false := by
                  cases hdw : isWhite d
                  · rfl
                  · exact absurd (by simp [hc, hdw] : (isWhite c && isWhite d) = true) hcd
                have hhead := squeezeWS_head_nonwhite d cs' hd
                rcases hsq : squeezeWS (d :: cs') with _ | ⟨y, ys⟩
                · simp [hsq] at hhead
                · rw [hsq] at hhead
                  have hyd : y = d := by simpa using hhead
                  have hy : isWhite y = false := hyd ▸ hd
                  simp only [hc, if_true]
                  simp [noTwoWS, hy, hsq ▸ ih.1]
              · simp only [Bool.not_eq_true] at hc
                simp only [hc, if_false]
                rcases hsq : squeezeWS (d :: cs') with _ | ⟨y, ys⟩
                · simp [noTwoWS]
                · simp [noTwoWS, hc, hsq ▸ ih.1]
            · have hc' : (!isWhite (if isWhite c then ' ' else c) ||
                  ((if isWhite c then ' ' else c) == ' ')) = true := by
                by_cases hc : isWhite c = true <;> simp [hc]
              simpa [wsAreSpace, hc'] using ih.2

theorem squeezeWS_fix : ∀ s, noTwoWS s = true → wsAreSpace s = true →
    squeezeWS s = s := by
  intro s
  induction s with
  | nil => intro _ _; rfl
  | cons c cs ih =>
      intro h1 h2
      cases cs with
      | nil =>
          by_cases hc : isWhite c = true
          · have : c = ' ' := by
              have := List.all_eq_true.mp h2 c (by simp)
              simpa [hc] using this
            simp [squeezeWS, hc, this]
          · simp only [Bool.not_eq_true] at hc
            simp [squeezeWS, hc]
      | cons d cs' =>
          have hpair : (isWhite c && isWhite d) = false := by
            have h1' := h1
            simp only [noTwoWS, Bool.and_eq_true, Bool.not_eq_true',
              Bool.not_eq_true] at h1'
            exact h1'.1
          have htail : squeezeWS (d :: cs') = d :: cs' :=
            ih (noTwoWS_tail h1) (by simpa [wsAreSpace] using
              (List.all_eq_true.mp h2 |> fun hall =>
                List.all_eq_true.mpr fun x hx => hall x (List.mem_cons_of_mem _ hx)))
          have hcfix : (if isWhite c then ' ' else c) = c := by
            by_cases hc : isWhite c = true
            · have : c = ' ' := by
                have := List.all_eq_true.mp h2 c (by simp)
                simpa [hc] using this
              simp [hc, this]
            · simp only [Bool.not_eq_true] at hc
              simp [hc]
          simp [squeezeWS, hpair, hcfix, htail]

theorem stripLeadWS_noLead : ∀ s, noLeadWS (stripLeadWS s) = true := by
  intro s
  induction s with
  | nil => rfl
  | cons c cs ih =>
      by_cases hc : isWhite c = true
      · simpa [stripLeadWS, List.dropWhile, hc] using ih
      · simp only [Bool.not_eq_true] at hc
        simp [stripLeadWS, List.dropWhile, hc, noLeadWS]

theorem stripLeadWS_fix {s : List Char} (h : noLeadWS s = true) :
    stripLeadWS s = s := by
  cases s with
  | nil => rfl
  | cons c cs =>
      have hc : isWhite c = false := by simpa [noLeadWS] using h
      simp [stripLeadWS, List.dropWhile, hc]

theorem stripLeadWS_noTwo : ∀ s, noTwoWS s = true →
    noTwoWS (stripLeadWS s) = true := by
  intro s
  induction s with
  | nil => intro _; rfl
  | cons c cs ih =>
      intro h
      by_cases hc : isWhite c = true
      · simpa [stripLeadWS, List.dropWhile, hc] using ih (noTwoWS_tail h)
      · simp only [Bool.not_eq_true] at hc
        simpa [stripLeadWS, List.dropWhile, hc] using h

theorem stripLeadWS_wsAreSpace : ∀ s, wsAreSpace s = true →
    wsAreSpace (stripLeadWS s) = true := by
  intro s
  induction s with
  | nil => intro _; rfl
  | cons c cs ih =>
      intro h
      have htail : wsAreSpace cs = true :=
        List.all_eq_true.mpr fun x hx =>
          List.all_eq_true.mp h x (List.mem_cons_of_mem _ hx)
      by_cases hc : isWhite c = true
      · simpa [stripLeadWS, List.dropWhile, hc] using ih htail
      · simp only [Bool.not_eq_true] at hc
        simpa [stripLeadWS, List.dropWhile, hc] using h

theorem stripTrailWS_cons (c : Char) (cs : List Char) :
    stripTrailWS (c :: cs) =
      match stripTrailWS cs with
      | [] => if isWhite c then [] else [c]
      | r => c :: r := rfl

theorem stripTrailWS_head? : ∀ s : List Char,
    stripTrailWS s = [] ∨ (stripTrailWS s).head? = s.head? := by
  intro s
  cases s with
  | nil => exact Or.inl rfl
  | cons c cs =>
      rcases hr : stripTrailWS cs with _ | ⟨y, ys⟩
      · by_cases hc : isWhite c = true
        · exact Or.inl (by simp [stripTrailWS, hr, hc])
        · simp only [Bool.not_eq_true] at hc
          exact Or.inr (by simp [stripTrailWS, hr, hc])
      · exact Or.inr (by simp [stripTrailWS, hr])

theorem stripTrailWS_subset : ∀ (s : List Char) (x : Char),
    x ∈ stripTrailWS s → x ∈ s := by
  intro s
  induction s with
  | nil => intro x hx; simp [stripTrailWS] at hx
  | cons c cs ih =>
      intro x hx
      rcases hr : stripTrailWS cs with _ | ⟨y, ys⟩
      · rw [hr] at ih
        by_cases hc : isWhite c = true
        · rw [show stripTrailWS (c :: cs) = [] by simp [stripTrailWS, hr, hc]] at hx
          simp at hx
        · simp only [Bool.not_eq_true] at hc
          rw [show stripTrailWS (c :: cs) = [c] by simp [stripTrailWS, hr, hc]] at hx
          simp at hx
          simp [hx]
      · rw [show stripTrailWS (c :: cs) = c :: y :: ys by
            simp [stripTrailWS, hr]] at hx
        rcases List.mem_cons.mp hx with hxc | hx'
        · simp [hxc]
        · exact List.mem_cons_of_mem _ (ih x (hr ▸ hx'))

theorem stripTrailWS_wsAreSpace {s : List Char} (h : wsAreSpace s = true) :
    wsAreSpace (stripTrailWS s) = true :=
  List.all_eq_true.mpr fun x hx =>
    List.all_eq_true.mp h x (stripTrailWS_subset s x hx)

theorem stripTrailWS_noTwo : ∀ s : List Char, noTwoWS s = true →
    noTwoWS (stripTrailWS s) = true := by
  intro s
  induction s with
  | nil => intro _; rfl
  | cons c cs ih =>
      intro h
      rcases hr : stripTrailWS cs with _ | ⟨y, ys⟩
      · by_cases hc : isWhite c = true
        · simp [stripTrailWS, hr, hc, noTwoWS]
        · simp only [Bool.not_eq_true] at hc
          simp [stripTrailWS, hr, hc, noTwoWS]
      · have hres : stripTrailWS (c :: cs) = c :: y :: ys := by
          simp [stripTrailWS, hr]
        rw [hres]
        have htail : noTwoWS (y :: ys) = true := hr ▸ ih (noTwoWS_tail h)
        rcases stripTrailWS_head? cs with hnil | hhead
        · rw [hnil] at hr; exact absurd hr (by simp)
        · rw [hr] at hhead
          cases cs with
          | nil => simp [stripTrailWS] at hr
          | cons d cs' =>
              have hyd : y = d := by simpa using hhead
              subst hyd
              simp only [noTwoWS, Bool.and_eq_true] at h
              simp [noTwoWS, htail, h.1]

theorem stripTrailWS_noLead {s : List Char} (h : noLeadWS s = true) :
    noLeadWS (stripTrailWS s) = true := by
  cases s with
  | nil => rfl
  | cons c cs =>
      rcases hr : stripTrailWS cs with _ | ⟨y, ys⟩
      · by_cases hc : isWhite c = true
        · simp [stripTrailWS, hr, hc, noLeadWS]
        · simp only [Bool.not_eq_true] at hc
          simp [stripTrailWS, hr, hc, noLeadWS]
      · have hres : stripTrailWS (c :: cs) = c :: y :: ys := by
          simp [stripTrailWS, hr]
        rw [hres]
        simpa [noLeadWS] using h

theorem stripTrailWS_noTrail : ∀ s : List Char,
    noTrailWS (stripTrailWS s) = true := by
  intro s
  induction s with
  | nil => rfl
  | cons c cs ih =>
      rcases hr : stripTrailWS cs with _ | ⟨y, ys⟩
      · by_cases hc : isWhite c = true
        · simp [stripTrailWS, hr, hc, noTrailWS]
        · simp only [Bool.not_eq_true] at hc
          simp [stripTrailWS, hr, hc, noTrailWS]
      · have hres : stripTrailWS (c :: cs) = c :: y :: ys := by
          simp [stripTrailWS, hr]
        rw [hres]
        have : noTrailWS (y :: ys) = true := hr ▸ ih
        simpa [noTrailWS] using this

theorem stripTrailWS_fix : ∀ s : List Char, noTrailWS s = true →
    stripTrailWS s = s := by
  intro s
  induction s with
  | nil => intro _; rfl
  | cons c cs ih =>
      intro h
      cases cs with
      | nil =>
          have hc : isWhite c = false := by simpa [noTrailWS] using h
          simp [stripTrailWS, hc]
      | cons d cs' =>
          have htail : stripTrailWS (d :: cs') = d :: cs' :=
            ih (by simpa [noTrailWS] using h)
          rw [stripTrailWS_cons, htail]

/-- Every output of the whitespace normalisation satisfies the
normal-form predicates. -/
theorem wsNormalize_normal_form (s : List Char) :
    noTwoWS (wsNormalize s) = true ∧ wsAreSpace (wsNormalize s) = true ∧
    noLeadWS (wsNormalize s) = true ∧ noTrailWS (wsNormalize s) = true := by
  have hsq := squeezeWS_props s
  have h1 := stripLeadWS_noTwo _ hsq.1
  have h2 := stripLeadWS_wsAreSpace _ hsq.2
  have h3 := stripLeadWS_noLead (squeezeWS s)
  exact ⟨stripTrailWS_noTwo _ h1, stripTrailWS_wsAreSpace h2,
    stripTrailWS_noLead h3, stripTrailWS_noTrail _⟩

/-- Whitespace normal forms are fixed points of the normalisation. -/
theorem wsNormalize_fix {s : List Char} (h1 : noTwoWS s = true)
    (h2 : wsAreSpace s = true) (h3 : noLeadWS s = true)
    (h4 : noTrailWS s = true) : wsNormalize s = s := by
  unfold wsNormalize
  rw [squeezeWS_fix s h1 h2, stripLeadWS_fix h3, stripTrailWS_fix s h4]

/-- C7: the between-token separator transducer maps every nonempty
whitespace run to exactly one space — never zero, never more than one —
and the whole-string whitespace normalisation the assembly performs is
idempotent: re-tokenizing an emitted output leaves its whitespace
unchanged. -/
theorem C7_whitespace_idempotent :
    (∀ w : List Char, w ≠ [] → w.all isWhite = true →
      deleteExtraSpace w = some [' ']) ∧
    (∀ s, wsNormalize (wsNormalize s) = wsNormalize s) := by
  constructor
  · intro w hne hall
    have : (!w.isEmpty && w.all isWhite) = true := by
      simp [hall, List.isEmpty_iff, hne]
    simp [deleteExtraSpace, this]
  · intro s
    obtain ⟨h1, h2, h3, h4⟩ := wsNormalize_normal_form s
    exact wsNormalize_fix h1 h2 h3 h4

/-- C7 witness instance: a three-space run maps to one space, and the
normalisation of a concrete mixed string is a fixed point. -/
theorem C7_whitespace_idempotent_witness :
    deleteExtraSpace [' ', ' ', ' '] = some [' '] ∧
    wsNormalize (wsNormalize ['a', ' ', ' ', 'b', '\t']) =
      wsNormalize ['a', ' ', ' ', 'b', '\t'] :=
  ⟨C7_whitespace_idempotent.1 [' ', ' ', ' '] (by decide) (by decide),
   C7_whitespace_idempotent.2 ['a', ' ', ' ', 'b', '\t']⟩

/-! ## C4 — idempotence of the preprocessing cdrewrite cascade

`ClassifyFst.__init__` (hne) compiles five context rewrite rules:

    math_symbol_to_spaced   = cdrewrite(insert(" "), math_symbols, following_char, Σ)
    emdash_joiner_to_space  = cdrewrite(cross("—", " "), digit_right, cg_block, Σ)
    emdash_to_spaced        = cdrewrite(cross("—", "— "), "", digit_right, Σ)
    equals_to_spaced        = cdrewrite(cross("=", " = "), non_digit_left, digit_right, Σ)
    joiner_hyphen_to_space  = cdrewrite(cross("-", " "), left_ctx, right_ctx, Σ)

The cdrewrite compiler itself is pynini.  Modelled from the spec
(§4.3): the compiled transducer rewrites every occurrence of the `from`
pattern obligatorily, left to right, in a single pass; the left context
is matched against the already rewritten side, the right context
against the input still to come.  `subPass` realises this for a
single-character `from`, `insPass` for an empty (insertion) `from`;
`none` as the boundary character stands for the edge of the string. -/

/-- A character-class context: fails at the string edge. -/
def ctxCls (p : Char → Bool) : Option Char → Bool
  | none => false
  | some c => p c

/-- The empty context `""`: matches everywhere, edges included. -/
def ctxAny : Option Char → Bool := fun _ => true

/-- One left-to-right obligatory pass of an insertion rule
`cdrewrite(insert(" "), L, R, Σ)`: insert one space at every boundary
whose previous character satisfies `L` and next character satisfies
`R`. -/
def insPass (L R : Char → Bool) : Option Char → List Char → List Char
  | _, [] => []
  | prev, c :: cs =>
      if (match prev with | some p => L p | none => false) && R c then
        ' ' :: c :: insPass L R (some c) cs
      else c :: insPass L R (some c) cs

/-- One left-to-right obligatory pass of a substitution rule
`cdrewrite(cross(f, to), L, R, Σ)` with a single-character `from`: at
each input character equal to `f`, if the last output character
satisfies `L` and the next input character satisfies `R`, emit `to`;
otherwise copy. -/
def subPass (f : Char) (tgt : List Char) (L R : Option Char → Bool) :
    Option Char → List Char → List Char
  | _, [] => []
  | prev, c :: cs =>
      if c == f && L prev && R cs.head? then
        tgt ++ subPass f tgt L R
          (match tgt.getLast? with | some x => some x | none => prev) cs
      else c :: subPass f tgt L R (some c) cs

theorem subPass_cons (f : Char) (tgt : List Char) (L R : Option Char → Bool)
    (prev : Option Char) (c : Char) (cs : List Char) :
    subPass f tgt L R prev (c :: cs) =
      if c == f && L prev && R cs.head? then
        tgt ++ subPass f tgt L R
          (match tgt.getLast? with | some x => some x | none => prev) cs
      else c :: subPass f tgt L R (some c) cs := rfl

/-- `math_symbols` of the hne preprocessing block. -/
def isMathSym (c : Char) : Bool :=
  c ∈ ['√', '∑', '∏', '∫', '∬', '∭', '∮', '∂', '∇']

/-- `following_char`: digit, Devanagari digit or ASCII letter. -/
def followingChar (c : Char) : Bool :=
  isAsciiDigit c || isCGDigit c || isAsciiAlpha c

/-- `left_ctx` / `digit_right`: ASCII or Devanagari digit. -/
def digitRight (c : Char) : Bool := isAsciiDigit c || isCGDigit c

/-- `non_digit_left`: a non-space character that is not a digit. -/
def nonDigitLeft (c : Char) : Bool := isNotSpace c && !digitRight c

/-- `math_symbol_to_spaced`. -/
def mathSymbolToSpaced (s : List Char) : List Char :=
  insPass isMathSym followingChar none s

/-- `emdash_joiner_to_space`. -/
def emdashJoinerToSpace (s : List Char) : List Char :=
  subPass '—' [' '] (ctxCls digitRight) (ctxCls inCGBlock) none s

/-- `emdash_to_spaced`. -/
def emdashToSpaced (s : List Char) : List Char :=
  subPass '—' ['—', ' '] ctxAny (ctxCls digitRight) none s

/-- `equals_to_spaced`. -/
def equalsToSpaced (s : List Char) : List Char :=
  subPass '=' [' ', '=', ' '] (ctxCls nonDigitLeft) (ctxCls digitRight) none s

/-- `joiner_hyphen_to_space`. -/
def joinerHyphenToSpace (s : List Char) : List Char :=
  subPass '-' [' '] (ctxCls digitRight) (ctxCls inCGBlock) none s

/-- An insertion rule whose inserted space matches neither context can
never re-fire on its own output. -/
theorem insPass_idem (L R : Char → Bool) (hL : L ' ' = false)
    (hR : R ' ' = false) :
    ∀ (s : List Char) (prev : Option Char),
      insPass L R prev (insPass L R prev s) = insPass L R prev s := by
  intro s
  induction s with
  | nil => intro prev; rfl
  | cons c cs ih =>
      intro prev
      cases hcond : ((match prev with | some p => L p | none => false) && R c) with
      | true =>
          have h1 : insPass L R prev (c :: cs) =
              ' ' :: c :: insPass L R (some c) cs := by
            simp [insPass, hcond]
          rw [h1]
          have h2 : insPass L R prev (' ' :: c :: insPass L R (some c) cs) =
              ' ' :: insPass L R (some ' ') (c :: insPass L R (some c) cs) := by
            cases prev with
            | none => simp [insPass]
            | some p => simp [insPass, hR]
          rw [h2]
          have h3 : insPass L R (some ' ') (c :: insPass L R (some c) cs) =
              c :: insPass L R (some c) (insPass L R (some c) cs) := by
            simp [insPass, hL]
          rw [h3, ih (some c)]
      | false =>
          have h1 : insPass L R prev (c :: cs) =
              c :: insPass L R (some c) cs := by
            simp [insPass, hcond]
          rw [h1]
          have h2 : insPass L R prev (c :: insPass L R (some c) cs) =
              c :: insPass L R (some c) (insPass L R (some c) cs) := by
            simp [insPass, hcond]
          rw [h2, ih (some c)]

/-- The head of a `subPass` output satisfies the same right-context
rejection as the head of its input, provided the rule's replacement
starts with a rejected character. -/
theorem subPass_head_R (f : Char) (t0 : Char) (ts : List Char)
    (L R : Option Char → Bool) (hRn : R none = false)
    (hR0 : R (some t0) = false) :
    ∀ (cs : List Char) (prev : Option Char), R cs.head? = false →
      R (subPass f (t0 :: ts) L R prev cs).head? = false := by
  intro cs prev hcs
  cases cs with
  | nil => simpa [subPass] using hRn
  | cons d ds =>
      cases hcond : (d == f && L prev && R ds.head?) with
      | true =>
          have h1 : subPass f (t0 :: ts) L R prev (d :: ds) =
              (t0 :: ts) ++ subPass f (t0 :: ts) L R
                (match (t0 :: ts).getLast? with
                  | some x => some x | none => prev) ds := by
            simp [subPass_cons, hcond]
          rw [h1]
          simpa using hR0
      | false =>
          have h1 : subPass f (t0 :: ts) L R prev (d :: ds) =
              d :: subPass f (t0 :: ts) L R (some d) ds := by
            simp [subPass_cons, hcond]
          rw [h1]
          simpa using hcs

/-- Idempotence of a substitution rule that replaces `f` by a single
space, when neither context accepts a space and the right context
rejects the edge. -/
theorem subPass_space_idem (f : Char) (L R : Option Char → Bool)
    (hf : (' ' == f) = false) (hRn : R none = false)
    (hRsp : R (some ' ') = false) :
    ∀ (s : List Char) (prev : Option Char),
      subPass f [' '] L R prev (subPass f [' '] L R prev s) =
        subPass f [' '] L R prev s := by
  intro s
  induction s with
  | nil => intro prev; rfl
  | cons c cs ih =>
      intro prev
      cases hcond : (c == f && L prev && R cs.head?) with
      | true =>
          have h1 : subPass f [' '] L R prev (c :: cs) =
              ' ' :: subPass f [' '] L R (some ' ') cs := by
            simp [subPass_cons, hcond]
          rw [h1, subPass_cons]
          simp only [hf, Bool.false_and, Bool.and_false, if_false,
            Bool.false_eq_true]
          rw [ih (some ' ')]
      | false =>
          have h1 : subPass f [' '] L R prev (c :: cs) =
              c :: subPass f [' '] L R (some c) cs := by
            simp [subPass_cons, hcond]
          rw [h1, subPass_cons]
          have hcond2 : (c == f && L prev &&
              R (subPass f [' '] L R (some c) cs).head?) = false := by
            cases hA : (c == f && L prev) with
            | false => simp [hA]
            | true =>
                have hcs : R cs.head? = false := by
                  rw [hA] at hcond
                  simpa using hcond
                simp [hA, subPass_head_R f ' ' [] L R hRn hRsp cs (some c) hcs]
          simp only [hcond2, if_false, Bool.false_eq_true]
          rw [ih (some c)]

/-- Idempotence of a substitution rule replacing `f` by `f` followed by
a space (the em-dash spacing rule): the copy of `f` in the replacement
is followed by a space the right context rejects, and the replacement
head `f` is itself rejected by the right context. -/
theorem subPass_dup_idem (f : Char) (L R : Option Char → Bool)
    (hf : (' ' == f) = false) (hRn : R none = false)
    (hRsp : R (some ' ') = false) (hRf : R (some f) = false) :
    ∀ (s : List Char) (prev : Option Char),
      subPass f [f, ' '] L R prev (subPass f [f, ' '] L R prev s) =
        subPass f [f, ' '] L R prev s := by
  intro s
  induction s with
  | nil => intro prev; rfl
  | cons c cs ih =>
      intro prev
      cases hcond : (c == f && L prev && R cs.head?) with
      | true =>
          have h1 : subPass f [f, ' '] L R prev (c :: cs) =
              f :: ' ' :: subPass f [f, ' '] L R (some ' ') cs := by
            simp [subPass_cons, hcond]
          rw [h1, subPass_cons]
          simp only [hRsp, Bool.and_false, if_false, List.head?_cons,
            Bool.false_eq_true]
          rw [subPass_cons]
          simp only [hf, Bool.false_and, Bool.and_false, if_false,
            Bool.false_eq_true]
          rw [ih (some ' ')]
      | false =>
          have h1 : subPass f [f, ' '] L R prev (c :: cs) =
              c :: subPass f [f, ' '] L R (some c) cs := by
            simp [subPass_cons, hcond]
          rw [h1, subPass_cons]
          have hcond2 : (c == f && L prev &&
              R (subPass f [f, ' '] L R (some c) cs).head?) = false := by
            cases hA : (c == f && L prev) with
            | false => simp [hA]
            | true =>
                have hcs : R cs.head? = false := by
                  rw [hA] at hcond
                  simpa using hcond
                simp [hA, subPass_head_R f f [' '] L R hRn hRf cs (some c) hcs]
          simp only [hcond2, if_false, Bool.false_eq_true]
          rw [ih (some c)]

/-- Idempotence of a substitution rule replacing `f` by `f` with spaces
on both sides (the equals spacing rule): the copy of `f` in the
replacement is preceded by a space the left context rejects. -/
theorem subPass_pad_idem (f : Char) (L R : Option Char → Bool)
    (hf : (' ' == f) = false) (hRn : R none = false)
    (hRsp : R (some ' ') = false) (hLsp : L (some ' ') = false) :
    ∀ (s : List Char) (prev : Option Char),
      subPass f [' ', f, ' '] L R prev (subPass f [' ', f, ' '] L R prev s) =
        subPass f [' ', f, ' '] L R prev s := by
  intro s
  induction s with
  | nil => intro prev; rfl
  | cons c cs ih =>
      intro prev
      cases hcond : (c == f && L prev && R cs.head?) with
      | true =>
          have h1 : subPass f [' ', f, ' '] L R prev (c :: cs) =
              ' ' :: f :: ' ' :: subPass f [' ', f, ' '] L R (some ' ') cs := by
            simp [subPass_cons, hcond]
          rw [h1, subPass_cons]
          simp only [hf, Bool.false_and, Bool.and_false, if_false,
            Bool.false_eq_true]
          rw [subPass_cons]
          simp only [hLsp, Bool.and_false, Bool.false_and, if_false,
            Bool.false_eq_true]
          rw [subPass_cons]
          simp only [hf, Bool.false_and, Bool.and_false, if_false,
            Bool.false_eq_true]
          rw [ih (some ' ')]
      | false =>
          have h1 : subPass f [' ', f, ' '] L R prev (c :: cs) =
              c :: subPass f [' ', f, ' '] L R (some c) cs := by
            simp [subPass_cons, hcond]
          rw [h1, subPass_cons]
          have hcond2 : (c == f && L prev &&
              R (subPass f [' ', f, ' '] L R (some c) cs).head?) = false := by
            cases hA : (c == f && L prev) with
            | false => simp [hA]
            | true =>
                have hcs : R cs.head? = false := by
                  rw [hA] at hcond
                  simpa using hcond
                simp [hA,
                  subPass_head_R f ' ' [f, ' '] L R hRn hRsp cs (some c) hcs]
          simp only [hcond2, if_false, Bool.false_eq_true]
          rw [ih (some c)]

/-- C4: each of the five compiled preprocessing rewrite rules of the
hne engine is idempotent — applying a rule to its own output equals
applying it once, for every input string, because no further matches
remain after one pass. -/
theorem C4_preprocessing_idempotent :
    (∀ s, mathSymbolToSpaced (mathSymbolToSpaced s) = mathSymbolToSpaced s) ∧
    (∀ s, emdashJoinerToSpace (emdashJoinerToSpace s) = emdashJoinerToSpace s) ∧
    (∀ s, emdashToSpaced (emdashToSpaced s) = emdashToSpaced s) ∧
    (∀ s, equalsToSpaced (equalsToSpaced s) = equalsToSpaced s) ∧
    (∀ s, joinerHyphenToSpace (joinerHyphenToSpace s) = joinerHyphenToSpace s) := by
  refine ⟨fun s => ?_, fun s => ?_, fun s => ?_, fun s => ?_, fun s => ?_⟩
  · exact insPass_idem isMathSym followingChar (by decide) (by decide) s none
  · exact subPass_space_idem '—' (ctxCls digitRight) (ctxCls inCGBlock)
      (by decide) rfl (by decide) s none
  · exact subPass_dup_idem '—' ctxAny (ctxCls digitRight)
      (by decide) rfl (by decide) (by decide) s none
  · exact subPass_pad_idem '=' (ctxCls nonDigitLeft) (ctxCls digitRight)
      (by decide) rfl (by decide) (by decide) s none
  · exact subPass_space_idem '-' (ctxCls digitRight) (ctxCls inCGBlock)
      (by decide) rfl (by decide) s none

/-! ## C5 — negative weights under closure are not rejected

`WordFst.__init__` (kn) builds

    graph = add_weight(closure(KANNADA_CHAR - symbols, 1), MIN_NEG_WEIGHT)
            | default_graph
    graph = closure(graph + closure(punct + graph, 0, 1))

and performs no validation whatsoever: pynini's constructors are total.
The builder algebra below is modelled from the spec (§4.2): union via a
new start with epsilon arcs, concatenation via epsilon arcs carrying the
final weights, Kleene closure via a new start/final state with epsilon
arcs in and out, `add_weight` via a weighted entry arc.  Arc labels are
kept as opaque class names; only the graph shape and the weights matter
for the cycle. -/

/-- An arc of a weighted automaton: source, label, weight, target. -/
structure WArc where
  src : ℕ
  lab : Option String
  w : ℚ
  dst : ℕ
  deriving DecidableEq, Repr

/-- A weighted automaton: `n` states `0..n-1`, a start state, final
states with final weights, and arcs. -/
structure WFst where
  n : ℕ
  start : ℕ
  arcs : List WArc
  finals : List (ℕ × ℚ)
  deriving DecidableEq, Repr

/-- Renumber all states of an automaton upward by `k`. -/
def wShift (k : ℕ) (A : WFst) : WFst :=
  ⟨A.n + k, A.start + k,
    A.arcs.map fun a => ⟨a.src + k, a.lab, a.w, a.dst + k⟩,
    A.finals.map fun fw => (fw.1 + k, fw.2)⟩

/-- The acceptor of one character class (one labelled arc). -/
def wCls (name : String) : WFst :=
  ⟨2, 0, [⟨0, some name, 0, 1⟩], [(1, 0)]⟩

/-- Union: a fresh start state with epsilon arcs to both starts. -/
def wUnion (A B : WFst) : WFst :=
  let A' := wShift 1 A
  let B' := wShift (1 + A.n) B
  ⟨1 + A.n + B.n, 0,
    ⟨0, none, 0, A'.start⟩ :: ⟨0, none, 0, B'.start⟩ :: (A'.arcs ++ B'.arcs),
    A'.finals ++ B'.finals⟩

/-- Concatenation: epsilon arcs from the finals of `A`, carrying their
final weights, to the start of `B`. -/
def wConcat (A B : WFst) : WFst :=
  let B' := wShift A.n B
  ⟨A.n + B.n, A.start,
    A.arcs ++ B'.arcs ++ A.finals.map fun fw => ⟨fw.1, none, fw.2, B'.start⟩,
    B'.finals⟩

/-- `closure(A)`: a fresh start/final state with epsilon arcs into `A`
and epsilon arcs carrying the final weights back. -/
def wStar (A : WFst) : WFst :=
  ⟨A.n + 1, A.n,
    ⟨A.n, none, 0, A.start⟩ ::
      (A.arcs ++ A.finals.map fun fw => ⟨fw.1, none, fw.2, A.n⟩),
    (A.n, 0) :: A.finals⟩

/-- `closure(A, 1)` (one or more): epsilon repeat arcs from the finals
back to the start. -/
def wPlus (A : WFst) : WFst :=
  ⟨A.n, A.start,
    A.arcs ++ A.finals.map fun fw => ⟨fw.1, none, fw.2, A.start⟩,
    A.finals⟩

/-- The epsilon automaton (for `closure(A, 0, 1)`). -/
def wEps : WFst := ⟨1, 0, [], [(0, 0)]⟩

/-- `closure(A, 0, 1)`: the union of the epsilon automaton and `A`. -/
def wOpt (A : WFst) : WFst := wUnion wEps A

/-- `pynutil.add_weight(A, w)`: a fresh start with a weighted epsilon
entry arc. -/
def wAddWeight (w : ℚ) (A : WFst) : WFst :=
  ⟨A.n + 1, A.n, ⟨A.n, none, w, A.start⟩ :: A.arcs, A.finals⟩

/-- Modelled from the spec: `MIN_NEG_WEIGHT` of the absent kn
`graph_utils` module, the small negative priority bias. -/
def MIN_NEG_WEIGHT : ℚ := -1/10000

/-- The inner union of the kn word grammar: the negatively weighted
Kannada branch against the default branch. -/
def knWordUnion (w : ℚ) : WFst :=
  wUnion (wAddWeight w (wPlus (wCls "kannada_minus_symbols")))
    (wPlus (wCls "not_space_minus_punct"))

/-- The kn word graph: `closure(graph + closure(punct + graph, 0, 1))`. -/
def knWordGraphFst (w : ℚ) : WFst :=
  wStar (wConcat (knWordUnion w)
    (wOpt (wConcat (wCls "punct") (knWordUnion w))))

/-- The kn word constructor: it builds the graph and returns it; the
source performs no weight or cycle validation, so no error branch
exists. -/
def knWordFstBuild (w : ℚ) : Except String WFst :=
  Except.ok (knWordGraphFst w)

/-- `l` is a nonempty closed arc chain of `A`: consecutive arcs meet and
the last arc returns to the first arc's source. -/
def IsCycleOf (A : WFst) (l : List WArc) : Prop :=
  l ≠ [] ∧ (∀ a ∈ l, a ∈ A.arcs) ∧
    (∀ p ∈ l.zip (l.drop 1), p.1.dst = p.2.src) ∧
    (match l.head?, l.getLast? with
      | some a, some b => b.dst = a.src
      | _, _ => False)

/-- The total weight of an arc chain. -/
def cycleWeight (l : List WArc) : ℚ := (l.map WArc.w).sum

/-- The cycle through the weighted Kannada branch of the kn word graph:
outer-closure state 16, into the inner union, through the `add_weight`
entry arc carrying `w`, one Kannada character, out through the optional
punctuation block's epsilon branch and back to the closure state. -/
def knNegCycle (w : ℚ) : List WArc :=
  [⟨16, none, 0, 0⟩, ⟨0, none, 0, 3⟩, ⟨3, none, w, 1⟩,
   ⟨1, some "kannada_minus_symbols", 0, 2⟩, ⟨2, none, 0, 6⟩,
   ⟨6, none, 0, 7⟩, ⟨7, none, 0, 16⟩]

/-- The arc list of the built kn word graph, normalised. -/
theorem knWordGraphFst_arcs (w : ℚ) :
    (knWordGraphFst w).arcs =
      [⟨16, none, 0, 0⟩, ⟨0, none, 0, 3⟩, ⟨0, none, 0, 4⟩,
       ⟨3, none, w, 1⟩, ⟨1, some "kannada_minus_symbols", 0, 2⟩,
       ⟨2, none, 0, 1⟩, ⟨4, some "not_space_minus_punct", 0, 5⟩,
       ⟨5, none, 0, 4⟩, ⟨6, none, 0, 7⟩, ⟨6, none, 0, 8⟩,
       ⟨8, some "punct", 0, 9⟩, ⟨10, none, 0, 13⟩, ⟨10, none, 0, 14⟩,
       ⟨13, none, w, 11⟩, ⟨11, some "kannada_minus_symbols", 0, 12⟩,
       ⟨12, none, 0, 11⟩, ⟨14, some "not_space_minus_punct", 0, 15⟩,
       ⟨15, none, 0, 14⟩, ⟨9, none, 0, 10⟩, ⟨2, none, 0, 6⟩,
       ⟨5, none, 0, 6⟩, ⟨7, none, 0, 16⟩, ⟨12, none, 0, 16⟩,
       ⟨15, none, 0, 16⟩] := rfl

/-- The chosen chain is a cycle of the built graph. -/
theorem knNegCycle_is_cycle (w : ℚ) :
    IsCycleOf (knWordGraphFst w) (knNegCycle w) := by
  refine ⟨by simp [knNegCycle], ?_, ?_, ?_⟩
  · intro a ha
    rw [knWordGraphFst_arcs]
    simp only [knNegCycle, List.mem_cons, List.not_mem_nil, or_false] at ha
    rcases ha with h | h | h | h | h | h | h <;> subst h <;> simp
  · intro p hp
    simp only [knNegCycle, List.zip, List.zipWith, List.drop,
      List.mem_cons, List.not_mem_nil, or_false] at hp
    rcases hp with h | h | h | h | h | h <;> subst h <;> rfl
  · rfl

/-- The cycle's weight is exactly the bias placed under the closure. -/
theorem knNegCycle_weight (w : ℚ) : cycleWeight (knNegCycle w) = w := by
  simp [cycleWeight, knNegCycle]

/-- C5 counterexample: the kn word constructor completes successfully —
no rejection, no error branch — while its automaton contains a cycle of
weight `MIN_NEG_WEIGHT < 0` (the negatively weighted branch under the
outer Kleene closure). -/
theorem C5_negative_cycle_not_rejected :
    (knWordFstBuild MIN_NEG_WEIGHT).isOk = true ∧
    IsCycleOf (knWordGraphFst MIN_NEG_WEIGHT) (knNegCycle MIN_NEG_WEIGHT) ∧
    cycleWeight (knNegCycle MIN_NEG_WEIGHT) < 0 :=
  ⟨rfl, knNegCycle_is_cycle MIN_NEG_WEIGHT, by
    rw [knNegCycle_weight]
    norm_num [MIN_NEG_WEIGHT]⟩

/-- C5 (amended): no construction-time rejection of negative-weight
cycles exists.  For every negative bias `w`, the kn word constructor
completes successfully and its automaton contains a cycle of total
weight `w < 0`; the negative weight acts as a priority bias, not as a
rejected configuration. -/
theorem C5_construction_accepts_negative_cycles (w : ℚ) (hw : w < 0) :
    knWordFstBuild w = Except.ok (knWordGraphFst w) ∧
    IsCycleOf (knWordGraphFst w) (knNegCycle w) ∧
    cycleWeight (knNegCycle w) < 0 :=
  ⟨rfl, knNegCycle_is_cycle w, by rw [knNegCycle_weight]; exact hw⟩

/-- C5 witness instance at bias `-1`. -/
theorem C5_construction_accepts_negative_cycles_witness :
    knWordFstBuild (-1) = Except.ok (knWordGraphFst (-1)) ∧
    IsCycleOf (knWordGraphFst (-1)) (knNegCycle (-1)) ∧
    cycleWeight (knNegCycle (-1)) < 0 :=
  C5_construction_accepts_negative_cycles (-1) (by norm_num)

/-! ## C2 — the tight special idiom wins the shortest path on "10-2=8"

`MathFst.__init__` (hne) unions thirteen branches with priority biases;
the classify union then adds 1.15 to the math grammar, 2.1 to
punctuation tokens and 100 to the word fallback.  Each branch below is
the input-side weighted matcher of the corresponding source branch: a
matcher maps an input span to the minimal internal path weight with
which the branch accepts it (`none` = rejected), exactly the tropical
semiring semantics of the weighted union/concatenation.

Domains drawn from data files or modules not under `src/` are
modelled: the cardinal grammar accepts nonempty digit strings of either
script, `greek.tsv` maps single Greek letters, `math_operations.tsv`
covers the listed operator characters. -/

/-- Tropical alternative: minimum of two optional weights. -/
def oMin : Option ℤ → Option ℤ → Option ℤ
  | none, y => y
  | some x, none => some x
  | some x, some y => some (if x ≤ y then x else y)

/-- Tropical concatenation: sum of two optional weights. -/
def oAdd : Option ℤ → Option ℤ → Option ℤ
  | some x, some y => some (x + y)
  | _, _ => none

/-- A weighted matcher: minimal accepting weight of a span.  Weights
are integers in exact hundredths of the source's float biases (-0.28
becomes -28, 1.15 becomes 115, 100 becomes 10000): a fixed-point
representation that preserves every sum and the order. -/
def Mt : Type := List Char → Option ℤ

/-- The empty-string matcher (insertions consume no input). -/
def mEps : Mt := fun s => if s.isEmpty then some 0 else none

/-- A single literal character. -/
def mChar (c : Char) : Mt := fun s => if s == [c] then some 0 else none

/-- A single character of a class. -/
def mCls (p : Char → Bool) : Mt := fun s =>
  match s with
  | [c] => if p c then some 0 else none
  | _ => none

/-- `closure(class, 1)`: a nonempty span of a class. -/
def mPlusCls (p : Char → Bool) : Mt := fun s =>
  if !s.isEmpty && s.all p then some 0 else none

/-- Weighted union. -/
def mAlt (a b : Mt) : Mt := fun s => oMin (a s) (b s)

/-- `pynutil.add_weight`. -/
def mW (w : ℤ) (a : Mt) : Mt := fun s => (a s).map (· + w)

/-- Concatenation: minimum over all splits of the span. -/
def mSeq (a b : Mt) : Mt := fun s =>
  (List.range (s.length + 1)).foldl
    (fun acc i => oMin acc (oAdd (a (s.take i)) (b (s.drop i)))) none

/-- The `operators` union of the hne math grammar. -/
def isMathOp (c : Char) : Bool :=
  c ∈ ['+', '-', '*', '=', '&', '^', '%', '$', '#', '@', '!', '<', '>',
       '(', ')', '?', '×', '÷', '√', '≈', '·', 'x', 'X']

/-- Modelled from the spec: the input domain of `greek.tsv` (not under
`src/`) — single Greek letters. -/
def isGreekChar (c : Char) : Bool := 0x0391 ≤ c.val && c.val ≤ 0x03C9

/-- `operators_excluding_x`. -/
def isMathOpNotX (c : Char) : Bool := isMathOp c && !(c ∈ ['x', 'X'])

/-- `alpha_char`: any character except operators (keeping `x`/`X`),
space, digits of both scripts and Greek letters. -/
def isMathAlpha (c : Char) : Bool :=
  !isMathOpNotX c && !(c == ' ') && !isAsciiDigit c && !isCGDigit c &&
    !isGreekChar c

/-- `number_graph`: Modelled from the spec for the absent hne cardinal:
the cardinal grammar accepts nonempty digit strings, Devanagari or
Arabic. -/
def mNumber : Mt := fun s =>
  if !s.isEmpty && (s.all isAsciiDigit || s.all isCGDigit) then some 0
  else none

/-- `fractional_graph`: digit-by-digit, same input domain. -/
def mFractional : Mt := fun s =>
  if !s.isEmpty && (s.all isAsciiDigit || s.all isCGDigit) then some 0
  else none

/-- `decimal_graph = number + point + fractional`. -/
def mDecimal : Mt := mSeq mNumber (mSeq (mChar '.') mFractional)

/-- `greek_graph`. -/
def mGreek : Mt := mCls isGreekChar

/-- `alpha_graph = closure(alpha_char, 1)`. -/
def mAlpha : Mt := mPlusCls isMathAlpha

/-- `operand_graph`: weighted decimal preference, then number, Greek,
alpha. -/
def mOperand : Mt :=
  mAlt (mW (-10) mDecimal) (mAlt mNumber (mAlt mGreek mAlpha))

/-- `operators @ math_operations`: single operator characters. -/
def mOp : Mt := mCls isMathOp

/-- `delimiter = optional_space | insert(" ")`. -/
def mDelim : Mt := mAlt (mAlt mEps (mChar ' ')) mEps

/-- `single_var`: one ASCII letter. -/
def mSingleVar : Mt := mCls isAsciiAlpha

/-- `sqrt_operand = number | single_var | greek`. -/
def mSqrtOperand : Mt := mAlt mNumber (mAlt mSingleVar mGreek)

/-- `optional_space_sqrt`: an optional deleted space. -/
def mOptSpDel : Mt := mAlt mEps (mChar ' ')

/-- `math_expression`: operand operator operand. -/
def mMathExpression : Mt :=
  mSeq mOperand (mSeq mDelim (mSeq mOp (mSeq mDelim mOperand)))

/-- `extended_math`: operand operator operand operator operand. -/
def mExtendedMath : Mt :=
  mSeq mOperand (mSeq mDelim (mSeq mOp (mSeq mDelim
    (mSeq mOperand (mSeq mDelim (mSeq mOp (mSeq mDelim mOperand)))))))

/-- `operator_number`. -/
def mOperatorNumber : Mt := mSeq mOp (mSeq mDelim mOperand)

/-- `number_operator`. -/
def mNumberOperator : Mt := mSeq mOperand (mSeq mDelim mOp)

/-- `standalone_operator`. -/
def mStandaloneOperator : Mt := mOp

/-- `math_expression_tight_minus_equals`: number `-` number `=` number,
no spaces, with the fixed words से and बराबर in the output. -/
def mTightMinusEquals : Mt :=
  mSeq mNumber (mSeq (mChar '-') (mSeq mNumber (mSeq (mChar '=') mNumber)))

/-- `math_expression_tight_minus_text`: number `-` number. -/
def mTightMinusText : Mt := mSeq mNumber (mSeq (mChar '-') mNumber)

/-- `spaced_math_minus_equals`: number ` - ` number ` = ` number. -/
def mSpacedMinusEquals : Mt :=
  mSeq mNumber (mSeq (mChar ' ') (mSeq (mChar '-') (mSeq (mChar ' ')
    (mSeq mNumber (mSeq (mChar ' ') (mSeq (mChar '=')
      (mSeq (mChar ' ') mNumber)))))))

/-- `sqrt_expression`. -/
def mSqrtExpression : Mt :=
  mSeq (mChar '√') (mSeq mOptSpDel mSqrtOperand)

/-- `sqrt_with_spaced_operation`. -/
def mSqrtSpacedOperation : Mt :=
  mSeq (mChar '√') (mSeq mOptSpDel (mSeq mSqrtOperand (mSeq (mChar ' ')
    (mSeq mOp (mSeq (mChar ' ') mSqrtOperand)))))

/-- `sqrt_with_tight_operation`. -/
def mSqrtTightOperation : Mt :=
  mSeq (mChar '√') (mSeq mSqrtOperand (mSeq mOp mSqrtOperand))

/-- `implicit_mult`: number directly followed by a variable. -/
def mImplicitMult : Mt := mSeq mNumber mSingleVar

/-- `implicit_mult_greek`. -/
def mImplicitMultGreek : Mt := mSeq mNumber mGreek

/-- The thirteen branches of the hne math `final_graph`, in union
order. -/
inductive MathBranch
  | sqrtSpaced | sqrtTight | sqrtExpr | implMult | implMultGreek
  | tightMinusEquals | spacedMinusEquals | tightMinusText
  | mathExpr | extended | opNumber | numberOp | standalone
  deriving DecidableEq, Repr

/-- The matcher of each branch. -/
def mathBranchM : MathBranch → Mt
  | .sqrtSpaced => mSqrtSpacedOperation
  | .sqrtTight => mSqrtTightOperation
  | .sqrtExpr => mSqrtExpression
  | .implMult => mImplicitMult
  | .implMultGreek => mImplicitMultGreek
  | .tightMinusEquals => mTightMinusEquals
  | .spacedMinusEquals => mSpacedMinusEquals
  | .tightMinusText => mTightMinusText
  | .mathExpr => mMathExpression
  | .extended => mExtendedMath
  | .opNumber => mOperatorNumber
  | .numberOp => mNumberOperator
  | .standalone => mStandaloneOperator

/-- The priority bias of each branch, from `final_graph` (hundredths:
-28 is the float -0.28, and so on). -/
def mathBranchW : MathBranch → ℤ
  | .sqrtSpaced => -28
  | .sqrtTight => -27
  | .sqrtExpr => -25
  | .implMult => -22
  | .implMultGreek => -22
  | .tightMinusEquals => -20
  | .spacedMinusEquals => -18
  | .tightMinusText => -15
  | _ => 0

/-- The union order of `final_graph`. -/
def mathBranchList : List MathBranch :=
  [.sqrtSpaced, .sqrtTight, .sqrtExpr, .implMult, .implMultGreek,
   .tightMinusEquals, .spacedMinusEquals, .tightMinusText,
   .mathExpr, .extended, .opNumber, .numberOp, .standalone]

/-- The minimal weight with which the math grammar accepts a span. -/
def mathM (s : List Char) : Option ℤ :=
  mathBranchList.foldl
    (fun acc b => oMin acc ((mathBranchM b s).map (· + mathBranchW b))) none

/-- The shortest-path branch selection inside the math grammar: the
first branch in union order attaining the minimal weight. -/
def decodeMath (s : List Char) : Option MathBranch :=
  match mathM s with
  | none => none
  | some m =>
      mathBranchList.find? fun b =>
        (mathBranchM b s).map (· + mathBranchW b) == some m

/-- A lower bound for a matcher: every accepted span costs at least `q`. -/
def MLB (m : Mt) (q : ℤ) : Prop := ∀ s w, m s = some w → q ≤ w

theorem oMin_lb {x y : Option ℤ} {q w : ℤ}
    (hx : ∀ u, x = some u → q ≤ u) (hy : ∀ u, y = some u → q ≤ u)
    (h : oMin x y = some w) : q ≤ w := by
  cases x with
  | none =>
      cases y with
      | none => simp [oMin] at h
      | some b =>
          simp [oMin] at h
          exact h ▸ hy b rfl
  | some a =>
      cases y with
      | none =>
          simp [oMin] at h
          exact h ▸ hx a rfl
      | some b =>
          simp only [oMin, Option.some_inj] at h
          by_cases hab : a ≤ b
          · rw [if_pos hab] at h
            exact h ▸ hx a rfl
          · rw [if_neg hab] at h
            exact h ▸ hy b rfl

theorem oAdd_eq_some {x y : Option ℤ} {w : ℤ} (h : oAdd x y = some w) :
    ∃ u v, x = some u ∧ y = some v ∧ w = u + v := by
  cases x with
  | none => simp [oAdd] at h
  | some a =>
      cases y with
      | none => simp [oAdd] at h
      | some b =>
          simp only [oAdd, Option.some_inj] at h
          exact ⟨a, b, rfl, rfl, h.symm⟩

theorem foldl_oMin_lb {α : Type} (g : α → Option ℤ) (q : ℤ) :
    ∀ (l : List α) (acc : Option ℤ),
      (∀ w, acc = some w → q ≤ w) →
      (∀ x ∈ l, ∀ w, g x = some w → q ≤ w) →
      ∀ w, l.foldl (fun a x => oMin a (g x)) acc = some w → q ≤ w := by
  intro l
  induction l with
  | nil =>
      intro acc hacc _ w h
      exact hacc w (by simpa using h)
  | cons x l ih =>
      intro acc hacc hl w h
      exact ih (oMin acc (g x))
        (fun w' h' => oMin_lb hacc (hl x (List.mem_cons_self x l)) h')
        (fun y hy => hl y (List.mem_cons_of_mem _ hy)) w (by simpa using h)

theorem MLB.mono {m : Mt} {q q' : ℤ} (h : MLB m q) (hq : q' ≤ q) :
    MLB m q' := fun s w hw => le_trans hq (h s w hw)

theorem MLB.altMin {a b : Mt} {qa qb : ℤ} (ha : MLB a qa) (hb : MLB b qb) :
    MLB (mAlt a b) (min qa qb) := fun s _w h =>
  oMin_lb (fun u hu => le_trans (min_le_left qa qb) (ha s u hu))
    (fun u hu => le_trans (min_le_right qa qb) (hb s u hu)) h

theorem MLB.seq {a b : Mt} {qa qb : ℤ} (ha : MLB a qa) (hb : MLB b qb) :
    MLB (mSeq a b) (qa + qb) := by
  intro s w h
  refine foldl_oMin_lb _ (qa + qb) _ none (by simp) ?_ w h
  intro i _ w' h'
  rcases oAdd_eq_some h' with ⟨u, v, hu, hv, rfl⟩
  exact add_le_add (ha _ _ hu) (hb _ _ hv)

theorem MLB.ofW {a : Mt} {qa : ℤ} (ha : MLB a qa) (w : ℤ) :
    MLB (mW w a) (qa + w) := by
  intro s u h
  rcases Option.map_eq_some'.mp h with ⟨v, hv, rfl⟩
  exact add_le_add_right (ha s v hv) w

theorem zeroOnly_lb {m : Mt} (hm : ∀ s w, m s = some w → w = 0) :
    MLB m 0 := fun s w h => le_of_eq (hm s w h).symm

theorem mEps_lb : MLB mEps 0 :=
  zeroOnly_lb fun s w h => by
    unfold mEps at h
    split at h
    · exact (Option.some_inj.mp h).symm
    · exact absurd h (by simp)

theorem mChar_lb (c : Char) : MLB (mChar c) 0 :=
  zeroOnly_lb fun s w h => by
    unfold mChar at h
    split at h
    · exact (Option.some_inj.mp h).symm
    · exact absurd h (by simp)

theorem mCls_lb (p : Char → Bool) : MLB (mCls p) 0 :=
  zeroOnly_lb fun s w h => by
    unfold mCls at h
    rcases s with _ | ⟨c, _ | _⟩ <;> simp at h
    rcases h with ⟨_, h⟩
    exact h.symm

theorem mPlusCls_lb (p : Char → Bool) : MLB (mPlusCls p) 0 :=
  zeroOnly_lb fun s w h => by
    unfold mPlusCls at h
    split at h
    · exact (Option.some_inj.mp h).symm
    · exact absurd h (by simp)

theorem mNumber_lb : MLB mNumber 0 :=
  zeroOnly_lb fun s w h => by
    unfold mNumber at h
    split at h
    · exact (Option.some_inj.mp h).symm
    · exact absurd h (by simp)

theorem mFractional_lb : MLB mFractional 0 :=
  zeroOnly_lb fun s w h => by
    unfold mFractional at h
    split at h
    · exact (Option.some_inj.mp h).symm
    · exact absurd h (by simp)

theorem mDecimal_lb : MLB mDecimal 0 := by
  have h := MLB.seq mNumber_lb (MLB.seq (mChar_lb '.') mFractional_lb)
  exact h.mono (by decide)

theorem mOperand_lb : MLB mOperand (-10) := by
  have h := MLB.altMin (MLB.ofW mDecimal_lb (-10))
    (MLB.altMin mNumber_lb (MLB.altMin (mCls_lb isGreekChar)
      (mPlusCls_lb isMathAlpha)))
  exact h.mono (by decide)

theorem mOp_lb : MLB mOp 0 := mCls_lb _

theorem mDelim_lb : MLB mDelim 0 := by
  have h := MLB.altMin (MLB.altMin mEps_lb (mChar_lb ' ')) mEps_lb
  exact h.mono (by decide)

theorem mSqrtOperand_lb : MLB mSqrtOperand 0 := by
  have h := MLB.altMin mNumber_lb
    (MLB.altMin (mCls_lb isAsciiAlpha) (mCls_lb isGreekChar))
  exact h.mono (by decide)

theorem mOptSpDel_lb : MLB mOptSpDel 0 := by
  have h := MLB.altMin mEps_lb (mChar_lb ' ')
  exact h.mono (by decide)

/-- Every branch of the math grammar, bias included, costs at least
-30 hundredths (the worst case: the generic three-operand branch with
three decimal operands). -/
theorem mathBranchTotal_lb (b : MathBranch) :
    ∀ s w, (mathBranchM b s).map (· + mathBranchW b) = some w → -30 ≤ w := by
  have hbr : MLB (fun s => (mathBranchM b s).map (· + mathBranchW b)) (-30) := by
    show MLB (mW (mathBranchW b) (mathBranchM b)) (-30)
    cases b
    case sqrtSpaced =>
        exact (MLB.ofW (MLB.seq (mChar_lb '√') (MLB.seq mOptSpDel_lb
          (MLB.seq mSqrtOperand_lb (MLB.seq (mChar_lb ' ')
            (MLB.seq mOp_lb (MLB.seq (mChar_lb ' ') mSqrtOperand_lb))))))
          (mathBranchW .sqrtSpaced)).mono (by decide)
    case sqrtTight =>
        exact (MLB.ofW (MLB.seq (mChar_lb '√') (MLB.seq mSqrtOperand_lb
          (MLB.seq mOp_lb mSqrtOperand_lb))) (mathBranchW .sqrtTight)).mono
          (by decide)
    case sqrtExpr =>
        exact (MLB.ofW (MLB.seq (mChar_lb '√')
          (MLB.seq mOptSpDel_lb mSqrtOperand_lb)) (mathBranchW .sqrtExpr)).mono
          (by decide)
    case implMult =>
        exact (MLB.ofW (MLB.seq mNumber_lb (mCls_lb isAsciiAlpha))
          (mathBranchW .implMult)).mono (by decide)
    case implMultGreek =>
        exact (MLB.ofW (MLB.seq mNumber_lb (mCls_lb isGreekChar))
          (mathBranchW .implMultGreek)).mono (by decide)
    case tightMinusEquals =>
        exact (MLB.ofW (MLB.seq mNumber_lb (MLB.seq (mChar_lb '-')
          (MLB.seq mNumber_lb (MLB.seq (mChar_lb '=') mNumber_lb))))
          (mathBranchW .tightMinusEquals)).mono (by decide)
    case spacedMinusEquals =>
        exact (MLB.ofW (MLB.seq mNumber_lb (MLB.seq (mChar_lb ' ')
          (MLB.seq (mChar_lb '-') (MLB.seq (mChar_lb ' ')
            (MLB.seq mNumber_lb (MLB.seq (mChar_lb ' ')
              (MLB.seq (mChar_lb '=') (MLB.seq (mChar_lb ' ')
                mNumber_lb)))))))) (mathBranchW .spacedMinusEquals)).mono
          (by decide)
    case tightMinusText =>
        exact (MLB.ofW (MLB.seq mNumber_lb (MLB.seq (mChar_lb '-')
          mNumber_lb)) (mathBranchW .tightMinusText)).mono (by decide)
    case mathExpr =>
        exact (MLB.ofW (MLB.seq mOperand_lb (MLB.seq mDelim_lb
          (MLB.seq mOp_lb (MLB.seq mDelim_lb mOperand_lb))))
          (mathBranchW .mathExpr)).mono (by decide)
    case extended =>
        exact (MLB.ofW (MLB.seq mOperand_lb (MLB.seq mDelim_lb
          (MLB.seq mOp_lb (MLB.seq mDelim_lb (MLB.seq mOperand_lb
            (MLB.seq mDelim_lb (MLB.seq mOp_lb
              (MLB.seq mDelim_lb mOperand_lb))))))))
          (mathBranchW .extended)).mono (by decide)
    case opNumber =>
        exact (MLB.ofW (MLB.seq mOp_lb (MLB.seq mDelim_lb mOperand_lb))
          (mathBranchW .opNumber)).mono (by decide)
    case numberOp =>
        exact (MLB.ofW (MLB.seq mOperand_lb (MLB.seq mDelim_lb mOp_lb))
          (mathBranchW .numberOp)).mono (by decide)
    case standalone =>
        exact (MLB.ofW mOp_lb (mathBranchW .standalone)).mono (by decide)
  intro s w h
  exact hbr s w h

/-- The math grammar never accepts a span for less than -30
hundredths. -/
theorem mathM_lb : ∀ s w, mathM s = some w → -30 ≤ w := by
  intro s w h
  refine foldl_oMin_lb
    (fun b => (mathBranchM b s).map (· + mathBranchW b)) (-30)
    mathBranchList none (by simp) ?_ w h
  intro b _ w' h'
  exact mathBranchTotal_lb b s w' h'

/-! ### The token level for "10-2=8"

A parse of the input is a segmentation into labelled spans: a math
token (classify bias 1.15 = 115 hundredths), a token of one of the
other real categories, a punctuation token (bias 2.1 = 210), or a word
fallback token (bias 100 = 10000).  The other category taggers of the
hne engine are not under `src/`; they enter as abstract cost functions
bounded below by their classify biases (at least 1.0 = 100), and the
word fallback by 99 = 9900 (bias 10000 less a small negative internal
bias). -/

/-- The label of one token of a segmentation. -/
inductive SegLabel
  | math | other | punct | word
  deriving DecidableEq, Repr

/-- The weight of one labelled span, classify bias included. -/
def segCost (otherW pw ww : List Char → Option ℤ) :
    SegLabel × List Char → Option ℤ
  | (SegLabel.math, s) => (mathM s).map (· + 115)
  | (SegLabel.other, s) => otherW s
  | (SegLabel.punct, s) => pw s
  | (SegLabel.word, s) => ww s

/-- The total weight of a segmentation. -/
def parseCost (otherW pw ww : List Char → Option ℤ)
    (P : List (SegLabel × List Char)) : Option ℤ :=
  P.foldr (fun seg acc => oAdd (segCost otherW pw ww seg) acc) (some 0)

/-- The input covered by a segmentation. -/
def segsOf (P : List (SegLabel × List Char)) : List Char :=
  (P.map Prod.snd).flatten

/-- The input of the weight-priority scenario. -/
def c2Input : List Char := ['1', '0', '-', '2', '=', '8']

/-- The decomposition of a tight `a-b=c` span at the first `-` and the
first `=`. -/
def splitAtChar (c : Char) : List Char → Option (List Char × List Char)
  | [] => none
  | d :: ds =>
      if d = c then some ([], ds)
      else (splitAtChar c ds).map fun p => (d :: p.1, p.2)

/-- The three number fields the tight branch consumes. -/
def tightDecomp (s : List Char) : Option (List Char × List Char × List Char) :=
  (splitAtChar '-' s).bind fun p =>
    (splitAtChar '=' p.2).map fun q => (p.1, q.1, q.2)

/-- The token content emitted by `math_expression_tight_minus_equals`:
the three operands through the cardinal verbalisation `N`, the operator
words से and बराबर from the branch's fixed crosses. -/
def mathTightOutput (N : List Char → List Char) (a b c : List Char) :
    List Char :=
  "left: \"".toList ++ N a ++ "\" ".toList ++
  "operator: \"".toList ++ "से".toList ++ "\" ".toList ++
  "middle: \"".toList ++ N b ++ "\" ".toList ++
  "operator_two: \"".toList ++ "बराबर".toList ++ "\" ".toList ++
  "right: \"".toList ++ N c ++ "\" ".toList

/-- The math token the shortest path emits for a span: the winning
branch's output.  Only the tight special idiom's output is modelled —
the remaining branches draw their operator words from the external
`math_operations.tsv` data table, and no claim depends on them. -/
def mathTokenOutput (N : List Char → List Char) (s : List Char) :
    Option (List Char) :=
  if decodeMath s = some MathBranch.tightMinusEquals then
    (tightDecomp s).map fun p => mathTightOutput N p.1 p.2.1 p.2.2
  else none

/-- Every token of any segmentation costs at least 85 hundredths. -/
theorem segCost_lb (otherW pw ww : List Char → Option ℤ)
    (hother : ∀ s w, otherW s = some w → 100 ≤ w)
    (hpunct : ∀ s w, pw s = some w → 210 ≤ w)
    (hword : ∀ s w, ww s = some w → 9900 ≤ w) :
    ∀ seg w, segCost otherW pw ww seg = some w → 85 ≤ w := by
  rintro ⟨lab, s⟩ w h
  cases lab with
  | math =>
      rcases Option.map_eq_some'.mp h with ⟨m, hm, rfl⟩
      have := mathM_lb s m hm
      omega
  | other => have := hother s w h; omega
  | punct => have := hpunct s w h; omega
  | word => have := hword s w h; omega

/-- A segmentation of `k` tokens costs at least `85 k`. -/
theorem parseCost_lb (otherW pw ww : List Char → Option ℤ)
    (hother : ∀ s w, otherW s = some w → 100 ≤ w)
    (hpunct : ∀ s w, pw s = some w → 210 ≤ w)
    (hword : ∀ s w, ww s = some w → 9900 ≤ w) :
    ∀ P w, parseCost otherW pw ww P = some w → 85 * P.length ≤ w := by
  intro P
  induction P with
  | nil =>
      intro w h
      simp [parseCost] at h
      simp at h ⊢
      omega
  | cons seg P ih =>
      intro w h
      have hstep : parseCost otherW pw ww (seg :: P) =
          oAdd (segCost otherW pw ww seg) (parseCost otherW pw ww P) := rfl
      rw [hstep] at h
      rcases oAdd_eq_some h with ⟨u, v, hu, hv, rfl⟩
      have h1 := segCost_lb otherW pw ww hother hpunct hword seg u hu
      have h2 := ih v hv
      simp only [List.length_cons]
      push_cast
      omega

/-- C2: on the input "10-2=8", the shortest-path selection takes the
single math token through the tight special-idiom branch (bias -0.2 =
-20): that parse is valid with total weight 95 hundredths (0.95), every
other valid segmentation costs at least 100 hundredths (1.0) — in
particular any parse through the generic branch (bias 0, total 115) or
through other categories — and the selected branch emits the five
fields left, operator से, middle, operator_two बराबर, right. -/
theorem C2_tight_idiom_wins (otherW pw ww : List Char → Option ℤ)
    (N : List Char → List Char)
    (hother : ∀ s w, otherW s = some w → 100 ≤ w)
    (hpunct : ∀ s w, pw s = some w → 210 ≤ w)
    (hword : ∀ s w, ww s = some w → 9900 ≤ w) :
    parseCost otherW pw ww [(SegLabel.math, c2Input)] = some 95 ∧
    (∀ P w, P ≠ [] → segsOf P = c2Input →
      parseCost otherW pw ww P = some w →
        95 ≤ w ∧ (w < 100 → P = [(SegLabel.math, c2Input)] ∧ w = 95)) ∧
    decodeMath c2Input = some MathBranch.tightMinusEquals ∧
    mathTokenOutput N c2Input =
      some (mathTightOutput N ['1', '0'] ['2'] ['8']) := by
  have hmm : mathM c2Input = some (-20) := by decide
  have hone : parseCost otherW pw ww [(SegLabel.math, c2Input)] = some 95 := by
    show oAdd (segCost otherW pw ww (SegLabel.math, c2Input)) (some 0) = some 95
    simp [segCost, hmm, oAdd]
  refine ⟨hone, ?_, by decide, ?_⟩
  · intro P w hne hjoin hcost
    match P, hne with
    | [(lab, s)], _ =>
        have hs : s = c2Input := by simpa [segsOf] using hjoin
        subst hs
        have hseg : oAdd (segCost otherW pw ww (lab, c2Input)) (some 0) =
            some w := hcost
        rcases oAdd_eq_some hseg with ⟨u, v, hu, hv, rfl⟩
        have hv0 : v = 0 := by simpa using hv.symm
        subst hv0
        cases lab with
        | math =>
            have hu' : (mathM c2Input).map (· + 115) = some u := hu
            rcases Option.map_eq_some'.mp hu' with ⟨m, hm, hmu⟩
            rw [hmm] at hm
            have hm20 : m = -20 := by simpa using hm.symm
            subst hm20
            have hu95 : u = 95 := by simpa using hmu.symm
            subst hu95
            exact ⟨by omega, fun _ => ⟨rfl, by omega⟩⟩
        | other =>
            have := hother _ _ hu
            exact ⟨by omega, fun hlt => absurd hlt (by omega)⟩
        | punct =>
            have := hpunct _ _ hu
            exact ⟨by omega, fun hlt => absurd hlt (by omega)⟩
        | word =>
            have := hword _ _ hu
            exact ⟨by omega, fun hlt => absurd hlt (by omega)⟩
    | seg1 :: seg2 :: P', _ =>
        have hlen := parseCost_lb otherW pw ww hother hpunct hword
          (seg1 :: seg2 :: P') w hcost
        simp only [List.length_cons] at hlen
        have h2 : (85 : ℤ) * 2 ≤ 85 * (P'.length + 1 + 1 : ℕ) := by
          push_cast
          have : (0 : ℤ) ≤ P'.length := by positivity
          nlinarith
        have hw : (170 : ℤ) ≤ w := by
          have := le_trans h2 hlen
          omega
        exact ⟨by omega, fun hlt => absurd hlt (by omega)⟩
  · have hdec : decodeMath c2Input = some MathBranch.tightMinusEquals := by
      decide
    have hdc : tightDecomp c2Input = some (['1', '0'], ['2'], ['8']) := by
      decide
    unfold mathTokenOutput
    rw [if_pos hdec, hdc]
    rfl

/-- C2 witness instance: the abstract category bounds discharged with
everything rejected and the identity verbalisation. -/
theorem C2_tight_idiom_wins_witness :
    parseCost (fun _ => none) (fun _ => none) (fun _ => none)
      [(SegLabel.math, c2Input)] = some 95 ∧
    decodeMath c2Input = some MathBranch.tightMinusEquals :=
  ⟨(C2_tight_idiom_wins (fun _ => none) (fun _ => none) (fun _ => none)
      (fun a => a) (by intro s w h; exact absurd h (by simp))
      (by intro s w h; exact absurd h (by simp))
      (by intro s w h; exact absurd h (by simp))).1,
   (C2_tight_idiom_wins (fun _ => none) (fun _ => none) (fun _ => none)
      (fun a => a) (by intro s w h; exact absurd h (by simp))
      (by intro s w h; exact absurd h (by simp))
      (by intro s w h; exact absurd h (by simp))).2.2.1⟩

end ITN
